import Mathlib

/-!
Shallow embedding of the FML lexer (src/fml/parser.py) and proofs about it.

The Python `Lexer` pulls characters one at a time from a stream with a
one-character lookahead (`self.next`); here the lookahead and the rest of
the stream are merged into a single list `pending` (the unconsumed input),
so `self.next` corresponds to `pending.head?` and `self.next is None` to
`pending = []`.  Python exceptions are modelled with `Except`; since a
raised exception leaves the mutated `Lexer` object behind, every error
carries the state at the raise point.  `StopIteration` raised by `take`
at end-of-input is the constructor `BErr.stopIter`; the three `reject`
call sites become the other three constructors, carrying the data their
message interpolates.  The non-fatal warning printed for unknown escapes
is recorded in a `warnings` field.
-/

namespace FML

/-- A token: `kind` is one of "newline", "space", "quoted", "unquoted";
`value` the decoded text; `chars` the raw characters consumed. -/
structure Token where
  kind : String
  value : List Char
  chars : List Char
deriving DecidableEq

/-- The lexer cursor state (the mutable fields of the Python `Lexer`). -/
structure LexState where
  pending : List Char
  position : Nat
  line : Nat
  column : Nat
  prev : Option Token
  kind : Option String
  value : List Char
  chars : List Char
  warnings : List Char
deriving DecidableEq

/-- The exceptions the lexer can raise: `stopIter` is Python's
`StopIteration` from `take` at end-of-input; the others are the three
`reject` sites, carrying the data of their message. -/
inductive BErr where
  | stopIter : BErr
  | unterminatedQuote (raw : List Char) : BErr
  | bareQuote : BErr
  | invalidDigit (c : Char) (base : Nat) : BErr
deriving DecidableEq

/-- Lexer.__init__: position 1, line 1, column 0, empty buffers. -/
def initState (input : List Char) : LexState :=
  { pending := input, position := 1, line := 1, column := 0,
    prev := none, kind := none, value := [], chars := [], warnings := [] }

/-- Lexer.token: package the buffers into a Token. -/
def token (s : LexState) : Token :=
  { kind := s.kind.getD "", value := s.value, chars := s.chars }

/-- Lexer.take: consume the pending character (recording it in `chars`
and advancing position, line, column), or raise StopIteration. -/
def take (s : LexState) : Except (BErr × LexState) (Char × LexState) :=
  match s.pending with
  | [] => .error (.stopIter, s)
  | c :: rest =>
      .ok (c, { s with
        pending := rest,
        chars := s.chars ++ [c],
        position := s.position + 1,
        line := if c = '\n' then s.line + 1 else s.line,
        column := if c = '\n' then 0 else s.column + 1 })

/-- Lexer.discard: take, dropping the character. -/
def discard (s : LexState) : Except (BErr × LexState) LexState :=
  match take s with
  | .ok (_, s') => .ok s'
  | .error e => .error e

/-- Lexer.accept: take, appending the character to `value` as well. -/
def accept (s : LexState) : Except (BErr × LexState) LexState :=
  match take s with
  | .ok (c, s') => .ok { s' with value := s'.value ++ [c] }
  | .error e => .error e

/-- Lexer.insert: append a character to `value` only. -/
def insert (c : Char) (s : LexState) : LexState :=
  { s with value := s.value ++ [c] }

theorem take_ok_pending {s : LexState} {c : Char} {s' : LexState}
    (h : take s = .ok (c, s')) : s.pending = c :: s'.pending := by
  unfold take at h
  cases hp : s.pending with
  | nil => rw [hp] at h; exact absurd h (by simp)
  | cons a l =>
      rw [hp] at h
      simp only [Except.ok.injEq, Prod.mk.injEq] at h
      rw [← h.2, ← h.1]

theorem accept_ok_length {s s' : LexState} (h : accept s = .ok s') :
    s.pending.length = s'.pending.length + 1 := by
  unfold accept at h
  cases htk : take s with
  | error e => rw [htk] at h; exact absurd h (by simp)
  | ok p =>
      rw [htk] at h
      simp only [Except.ok.injEq] at h
      have hpend : s.pending = p.1 :: p.2.pending := take_ok_pending (by rw [htk])
      rw [hpend, ← h]
      rfl

theorem discard_ok_length {s s' : LexState} (h : discard s = .ok s') :
    s.pending.length = s'.pending.length + 1 := by
  unfold discard at h
  cases htk : take s with
  | error e => rw [htk] at h; exact absurd h (by simp)
  | ok p =>
      rw [htk] at h
      simp only [Except.ok.injEq] at h
      have hpend : s.pending = p.1 :: p.2.pending := take_ok_pending (by rw [htk])
      rw [hpend, ← h]
      rfl

/-- Lexer.newline: accept the single line feed. -/
def newline (s : LexState) : Except (BErr × LexState) LexState :=
  accept s

/-- Lexer.space: accept a maximal run of spaces and tabs. -/
def space (s : LexState) : Except (BErr × LexState) LexState :=
  if s.pending.head? = some ' ' ∨ s.pending.head? = some '\t' then
    match h : accept s with
    | .ok s' => space s'
    | .error e => .error e
  else
    .ok s
termination_by s.pending.length
decreasing_by
  rw [accept_ok_length h]
  exact Nat.lt_succ_self _

/-- Lexer.simple_escapes: the fixed escape table. -/
def simple_escapes : List (Char × Char) :=
  [('\\', '\\'), ('"', '"'),
   ('a', Char.ofNat 7), ('b', Char.ofNat 8), ('f', Char.ofNat 12),
   ('n', Char.ofNat 10), ('r', Char.ofNat 13), ('t', Char.ofNat 9),
   ('v', Char.ofNat 11)]

/-- Lexer.valid_digits: digit sets for bases 2, 8, 10 and 16 (the only
keys of the Python dict; other bases never occur). -/
def valid_digits (base : Nat) : List Char :=
  if base = 2 then "01".toList
  else if base = 8 then "01234567".toList
  else if base = 10 then "0123456789".toList
  else if base = 16 then "0123456789abcdefABCDEF".toList
  else []

/-- The numeric value Python's int() gives one digit character (both
cases of the hex letters). -/
def digitVal (c : Char) : Nat :=
  if '0' ≤ c ∧ c ≤ '9' then c.toNat - '0'.toNat
  else if 'a' ≤ c ∧ c ≤ 'f' then c.toNat - 'a'.toNat + 10
  else if 'A' ≤ c ∧ c ≤ 'F' then c.toNat - 'A'.toNat + 10
  else 0

/-- Python int(number, base) on a digit string. -/
def intOfDigits (base : Nat) (cs : List Char) : Nat :=
  cs.foldl (fun acc c => acc * base + digitVal c) 0

/-- The for-loop of Lexer.number: take `n` characters, rejecting any
that is not a digit of the base, accumulating the digit characters. -/
def numberLoop (base : Nat) :
    Nat → List Char → LexState → Except (BErr × LexState) (List Char × LexState)
  | 0, acc, s => .ok (acc, s)
  | n + 1, acc, s =>
      match take s with
      | .error e => .error e
      | .ok (c, s') =>
          if c ∈ valid_digits base then numberLoop base n (acc ++ [c]) s'
          else .error (.invalidDigit c base, s')

/-- Lexer.number: read `digits` digit characters, decode them as a
base-`base` numeral and insert the character with that code point. -/
def number (base digits : Nat) (s : LexState) : Except (BErr × LexState) LexState :=
  match numberLoop base digits [] s with
  | .error e => .error e
  | .ok (cs, s') => .ok (insert (Char.ofNat (intOfDigits base cs)) s')

/-- Lexer.quoted_escaped: discard the backslash, take the next
character and dispatch on it.  Note the unknown-escape branch calls
`accept` (as the source does), which consumes one further character. -/
def quoted_escaped (s : LexState) : Except (BErr × LexState) LexState :=
  match discard s with
  | .error e => .error e
  | .ok s1 =>
      match take s1 with
      | .error e => .error e
      | .ok (c, s2) =>
          match List.lookup c simple_escapes with
          | some d => .ok (insert d s2)
          | none =>
              if c = 'o' then number 8 2 s2
              else if c = 'x' then number 16 2 s2
              else
                accept { s2 with warnings := s2.warnings ++ [c] }

theorem numberLoop_ok_length {base : Nat} :
    ∀ {n : Nat} {acc : List Char} {s : LexState} {cs : List Char} {s' : LexState},
      numberLoop base n acc s = .ok (cs, s') → s'.pending.length ≤ s.pending.length := by
  intro n
  induction n with
  | zero =>
      intro acc s cs s' h
      unfold numberLoop at h
      simp only [Except.ok.injEq, Prod.mk.injEq] at h
      rw [← h.2]
  | succ m ih =>
      intro acc s cs s' h
      unfold numberLoop at h
      cases htk : take s with
      | error e => rw [htk] at h; exact absurd h (by simp)
      | ok p =>
          obtain ⟨c, s1⟩ := p
          rw [htk] at h
          dsimp only at h
          by_cases hd : c ∈ valid_digits base
          · rw [if_pos hd] at h
            have h1 := ih h
            have h2 := take_ok_pending htk
            rw [h2]
            exact Nat.le_succ_of_le h1
          · rw [if_neg hd] at h
            exact absurd h (by simp)

theorem number_ok_length {base digits : Nat} {s s' : LexState}
    (h : number base digits s = .ok s') : s'.pending.length ≤ s.pending.length := by
  unfold number at h
  cases hnl : numberLoop base digits [] s with
  | error e => rw [hnl] at h; exact absurd h (by simp)
  | ok p =>
      rw [hnl] at h
      simp only [Except.ok.injEq] at h
      have h1 : p.2.pending.length ≤ s.pending.length := numberLoop_ok_length hnl
      rw [← h]
      exact h1

theorem quoted_escaped_ok_length {s s' : LexState}
    (h : quoted_escaped s = .ok s') : s'.pending.length < s.pending.length := by
  unfold quoted_escaped at h
  cases hd : discard s with
  | error e => rw [hd] at h; exact absurd h (by simp)
  | ok s1 =>
      rw [hd] at h
      dsimp only at h
      have hlen1 := discard_ok_length hd
      cases htk : take s1 with
      | error e => rw [htk] at h; exact absurd h (by simp)
      | ok p =>
          obtain ⟨c, s2⟩ := p
          rw [htk] at h
          dsimp only at h
          have hlen2 := take_ok_pending htk
          have hlt : s2.pending.length < s.pending.length := by
            rw [hlen1, hlen2]
            simp [Nat.lt_succ_iff]
          cases hlk : List.lookup c simple_escapes with
          | some d =>
              rw [hlk] at h
              simp only [Except.ok.injEq] at h
              rw [← h]
              exact hlt
          | none =>
              rw [hlk] at h
              by_cases ho : c = 'o'
              · rw [if_pos ho] at h
                exact Nat.lt_of_le_of_lt (number_ok_length h) hlt
              · rw [if_neg ho] at h
                by_cases hx : c = 'x'
                · rw [if_pos hx] at h
                  exact Nat.lt_of_le_of_lt (number_ok_length h) hlt
                · rw [if_neg hx] at h
                  have h6 := accept_ok_length h
                  dsimp only at h6
                  omega

/-- The while-loop of Lexer.quoted: reject at end-of-input, stop after
discarding a closing quote, decode escapes, copy anything else. -/
def quotedLoop (s : LexState) : Except (BErr × LexState) LexState :=
  match s.pending with
  | [] => .error (.unterminatedQuote s.chars, s)
  | c :: _ =>
      if c = '"' then
        discard s
      else if c = '\\' then
        match h : quoted_escaped s with
        | .ok s' => quotedLoop s'
        | .error e => .error e
      else
        match h : accept s with
        | .ok s' => quotedLoop s'
        | .error e => .error e
termination_by s.pending.length
decreasing_by
  · exact quoted_escaped_ok_length h
  · rw [accept_ok_length h]
    exact Nat.lt_succ_self _

/-- Lexer.quoted: discard the opening quote, then loop. -/
def quoted (s : LexState) : Except (BErr × LexState) LexState :=
  match discard s with
  | .error e => .error e
  | .ok s1 => quotedLoop s1

/-- Lexer.unquoted: accept a maximal run of ordinary characters,
rejecting a quote met mid-run. -/
def unquoted (s : LexState) : Except (BErr × LexState) LexState :=
  match s.pending with
  | [] => .ok s
  | c :: _ =>
      if c = '"' then
        .error (.bareQuote, s)
      else if c = '\n' ∨ c = ' ' ∨ c = '\t' then
        .ok s
      else
        match h : accept s with
        | .ok s' => unquoted s'
        | .error e => .error e
termination_by s.pending.length
decreasing_by
  rw [accept_ok_length h]
  exact Nat.lt_succ_self _

/-- The outcome of one Lexer.__next__ call: a token, the StopIteration
signal that ends iteration, or a fatal reject.  Each carries the state
of the cursor afterwards (an exception leaves the mutated object). -/
inductive NextResult where
  | tok (t : Token) (s : LexState) : NextResult
  | stop (s : LexState) : NextResult
  | err (e : BErr) (s : LexState) : NextResult
deriving DecidableEq

/-- The tail of Lexer.__next__: on success package the buffers into a
Token and record it as `prev`; a StopIteration escaping a builder ends
iteration exactly like the one raised at end-of-input (`.stop`); any
other exception propagates (`.err`). -/
def finishStep : Except (BErr × LexState) LexState → NextResult
  | .ok s2 =>
      let t := token s2
      .tok t { s2 with prev := some t }
  | .error (.stopIter, s2) => .stop s2
  | .error (e, s2) => .err e s2

/-- Lexer.__next__: clear the buffers, classify the pending character,
run the builder that getattr dispatches to (the classification and the
name dispatch are fused into one if-chain), and package the result. -/
def nextToken (s0 : LexState) : NextResult :=
  let s : LexState := { s0 with kind := none, value := [], chars := [] }
  match s.pending with
  | [] => .stop s
  | c :: _ =>
      finishStep
        (if c = '\n' then newline { s with kind := some "newline" }
         else if c = ' ' ∨ c = '\t' then space { s with kind := some "space" }
         else if c = '"' then quoted { s with kind := some "quoted" }
         else unquoted { s with kind := some "unquoted" })

/-- The state a builder result carries. -/
def resState : Except (BErr × LexState) LexState → LexState
  | .ok s' => s'
  | .error (_, s') => s'

/-- The errors that can only be raised with the input exhausted. -/
def BErr.isEof : BErr → Bool
  | .stopIter => true
  | .unterminatedQuote _ => true
  | _ => false

def resEof : Except (BErr × LexState) LexState → Bool
  | .ok _ => false
  | .error (e, _) => e.isEof

/-- Facts every builder call preserves: the characters moved into the
`chars` buffer are exactly those removed from `pending`; `pending`
never grows; StopIteration and UnterminatedQuote happen only with the
input exhausted. -/
def stepInv (s : LexState) (r : Except (BErr × LexState) LexState) : Prop :=
  (resState r).chars ++ (resState r).pending = s.chars ++ s.pending ∧
  (resState r).pending.length ≤ s.pending.length ∧
  (resEof r = true → (resState r).pending = [])

theorem take_cases (s : LexState) :
    match take s with
    | .ok (_, s') =>
        s'.chars ++ s'.pending = s.chars ++ s.pending ∧
        s'.pending.length < s.pending.length ∧ s'.value = s.value
    | .error (e, s') => s' = s ∧ e = .stopIter ∧ s.pending = [] := by
  cases hp : s.pending with
  | nil => simp [take, hp]
  | cons c rest => simp [take, hp]

theorem discard_cases (s : LexState) :
    match discard s with
    | .ok s' =>
        s'.chars ++ s'.pending = s.chars ++ s.pending ∧
        s'.pending.length < s.pending.length
    | .error (e, s') => s' = s ∧ e = .stopIter ∧ s.pending = [] := by
  have h := take_cases s
  cases htk : take s with
  | ok p =>
      rw [htk] at h
      obtain ⟨c, s1⟩ := p
      simp only [discard, htk]
      exact ⟨h.1, h.2.1⟩
  | error e =>
      rw [htk] at h
      obtain ⟨e1, s1⟩ := e
      simp only [discard, htk]
      exact h

theorem accept_cases (s : LexState) :
    match accept s with
    | .ok s' =>
        s'.chars ++ s'.pending = s.chars ++ s.pending ∧
        s'.pending.length < s.pending.length
    | .error (e, s') => s' = s ∧ e = .stopIter ∧ s.pending = [] := by
  have h := take_cases s
  cases htk : take s with
  | ok p =>
      rw [htk] at h
      obtain ⟨c, s1⟩ := p
      simp only [accept, htk]
      exact ⟨h.1, h.2.1⟩
  | error e =>
      rw [htk] at h
      obtain ⟨e1, s1⟩ := e
      simp only [accept, htk]
      exact h

theorem stepInv_ok_self {s : LexState} : stepInv s (.ok s) := by
  refine ⟨rfl, Nat.le_refl _, ?_⟩
  intro h
  simp [resEof] at h

theorem stepInv_stopIter {s : LexState} (hp : s.pending = []) :
    stepInv s (.error (.stopIter, s)) := by
  exact ⟨rfl, Nat.le_refl _, fun _ => hp⟩

theorem stepInv_ok_trans {s s1 : LexState} {r : Except (BErr × LexState) LexState}
    (h1 : s1.chars ++ s1.pending = s.chars ++ s.pending)
    (h2 : s1.pending.length ≤ s.pending.length)
    (h3 : stepInv s1 r) : stepInv s r :=
  ⟨h3.1.trans h1, h3.2.1.trans h2, h3.2.2⟩

theorem accept_stepInv (s : LexState) : stepInv s (accept s) := by
  have h := accept_cases s
  cases ha : accept s with
  | ok s' =>
      rw [ha] at h
      exact ⟨h.1, Nat.le_of_lt h.2, by intro hh; simp [resEof] at hh⟩
  | error e =>
      rw [ha] at h
      obtain ⟨e1, s1⟩ := e
      obtain ⟨rfl, rfl, hp⟩ := h
      exact stepInv_stopIter hp

theorem discard_stepInv (s : LexState) : stepInv s (discard s) := by
  have h := discard_cases s
  cases ha : discard s with
  | ok s' =>
      rw [ha] at h
      exact ⟨h.1, Nat.le_of_lt h.2, by intro hh; simp [resEof] at hh⟩
  | error e =>
      rw [ha] at h
      obtain ⟨e1, s1⟩ := e
      obtain ⟨rfl, rfl, hp⟩ := h
      exact stepInv_stopIter hp

theorem newline_stepInv (s : LexState) : stepInv s (newline s) :=
  accept_stepInv s

theorem space_stepInv (s : LexState) : stepInv s (space s) := by
  induction s using space.induct with
  | case1 x hg s1 ha ih =>
      unfold space
      rw [if_pos hg, ha]
      have hc := accept_cases x
      rw [ha] at hc
      exact stepInv_ok_trans hc.1 (Nat.le_of_lt hc.2) ih
  | case2 x hg e ha =>
      unfold space
      rw [if_pos hg, ha]
      have hc := accept_cases x
      rw [ha] at hc
      obtain ⟨e1, s1⟩ := e
      obtain ⟨rfl, rfl, hp⟩ := hc
      exact stepInv_stopIter hp
  | case3 x hg =>
      unfold space
      rw [if_neg hg]
      exact stepInv_ok_self

theorem numberLoop_cases (base : Nat) :
    ∀ (n : Nat) (acc : List Char) (s : LexState),
      match numberLoop base n acc s with
      | .ok (_, s') =>
          s'.chars ++ s'.pending = s.chars ++ s.pending ∧
          s'.pending.length ≤ s.pending.length
      | .error (e, s') =>
          s'.chars ++ s'.pending = s.chars ++ s.pending ∧
          s'.pending.length ≤ s.pending.length ∧
          (e.isEof = true → s'.pending = []) := by
  intro n
  induction n with
  | zero =>
      intro acc s
      exact ⟨rfl, Nat.le_refl _⟩
  | succ m ih =>
      intro acc s
      unfold numberLoop
      have hc := take_cases s
      cases htk : take s with
      | error e =>
          rw [htk] at hc
          obtain ⟨e1, s1⟩ := e
          obtain ⟨rfl, rfl, hp⟩ := hc
          exact ⟨rfl, Nat.le_refl _, fun _ => hp⟩
      | ok p =>
          rw [htk] at hc
          obtain ⟨c, s1⟩ := p
          dsimp only
          by_cases hd : c ∈ valid_digits base
          · rw [if_pos hd]
            have hrec := ih (acc ++ [c]) s1
            cases hnl : numberLoop base m (acc ++ [c]) s1 with
            | ok q =>
                rw [hnl] at hrec
                obtain ⟨cs, s2⟩ := q
                exact ⟨hrec.1.trans hc.1, hrec.2.trans (Nat.le_of_lt hc.2.1)⟩
            | error e =>
                rw [hnl] at hrec
                obtain ⟨e1, s2⟩ := e
                exact ⟨hrec.1.trans hc.1, hrec.2.1.trans (Nat.le_of_lt hc.2.1), hrec.2.2⟩
          · rw [if_neg hd]
            refine ⟨hc.1, Nat.le_of_lt hc.2.1, ?_⟩
            intro hh
            simp [BErr.isEof] at hh

theorem number_stepInv (base digits : Nat) (s : LexState) :
    stepInv s (number base digits s) := by
  unfold number
  have hc := numberLoop_cases base digits [] s
  cases hnl : numberLoop base digits [] s with
  | error e =>
      rw [hnl] at hc
      obtain ⟨e1, s1⟩ := e
      exact ⟨hc.1, hc.2.1, hc.2.2⟩
  | ok p =>
      rw [hnl] at hc
      obtain ⟨cs, s1⟩ := p
      exact ⟨hc.1, hc.2, by intro hh; simp [resEof] at hh⟩

theorem quoted_escaped_stepInv (s : LexState) : stepInv s (quoted_escaped s) := by
  unfold quoted_escaped
  have hd := discard_cases s
  cases hdd : discard s with
  | error e =>
      rw [hdd] at hd
      obtain ⟨e1, s1⟩ := e
      obtain ⟨rfl, rfl, hp⟩ := hd
      exact stepInv_stopIter hp
  | ok s1 =>
      rw [hdd] at hd
      dsimp only
      have ht := take_cases s1
      cases htk : take s1 with
      | error e =>
          rw [htk] at ht
          obtain ⟨e1, s2⟩ := e
          obtain ⟨rfl, rfl, hp⟩ := ht
          exact stepInv_ok_trans hd.1 (Nat.le_of_lt hd.2) (stepInv_stopIter hp)
      | ok p =>
          rw [htk] at ht
          obtain ⟨c, s2⟩ := p
          dsimp only
          have comp : ∀ r, stepInv s2 r → stepInv s r := fun r h =>
            stepInv_ok_trans hd.1 (Nat.le_of_lt hd.2)
              (stepInv_ok_trans ht.1 (Nat.le_of_lt ht.2.1) h)
          cases hlk : List.lookup c simple_escapes with
          | some d =>
              exact comp _ ⟨rfl, Nat.le_refl _, by intro hh; simp [resEof] at hh⟩
          | none =>
              by_cases ho : c = 'o'
              · rw [if_pos ho]
                exact comp _ (number_stepInv 8 2 s2)
              · rw [if_neg ho]
                by_cases hx : c = 'x'
                · rw [if_pos hx]
                  exact comp _ (number_stepInv 16 2 s2)
                · rw [if_neg hx]
                  have ha := accept_stepInv { s2 with warnings := s2.warnings ++ [c] }
                  exact comp _ ha

theorem quotedLoop_stepInv (s : LexState) : stepInv s (quotedLoop s) := by
  induction s using quotedLoop.induct with
  | case1 x hp =>
      unfold quotedLoop
      rw [hp]
      exact ⟨rfl, Nat.le_refl _, fun _ => hp⟩
  | case2 x rest hp =>
      unfold quotedLoop
      rw [hp]
      dsimp only
      rw [if_pos rfl]
      exact discard_stepInv x
  | case3 x rest s' hqe hp hne ih =>
      unfold quotedLoop
      rw [hp]
      dsimp only
      rw [if_neg hne, if_pos rfl, hqe]
      have hq := quoted_escaped_stepInv x
      rw [hqe] at hq
      exact stepInv_ok_trans hq.1 hq.2.1 ih
  | case4 x rest e hqe hp hne =>
      unfold quotedLoop
      rw [hp]
      dsimp only
      rw [if_neg hne, if_pos rfl, hqe]
      have hq := quoted_escaped_stepInv x
      rw [hqe] at hq
      exact hq
  | case5 x c rest hp hq hb s' ha ih =>
      unfold quotedLoop
      rw [hp]
      dsimp only
      rw [if_neg hq, if_neg hb, ha]
      have hc := accept_cases x
      rw [ha] at hc
      exact stepInv_ok_trans hc.1 (Nat.le_of_lt hc.2) ih
  | case6 x c rest hp hq hb e ha =>
      unfold quotedLoop
      rw [hp]
      dsimp only
      rw [if_neg hq, if_neg hb, ha]
      have hc := accept_cases x
      rw [ha] at hc
      obtain ⟨e1, s1⟩ := e
      obtain ⟨rfl, rfl, hpe⟩ := hc
      exact stepInv_stopIter hpe

theorem quoted_stepInv (s : LexState) : stepInv s (quoted s) := by
  unfold quoted
  have hd := discard_cases s
  cases hdd : discard s with
  | error e =>
      rw [hdd] at hd
      obtain ⟨e1, s1⟩ := e
      obtain ⟨rfl, rfl, hp⟩ := hd
      exact stepInv_stopIter hp
  | ok s1 =>
      rw [hdd] at hd
      exact stepInv_ok_trans hd.1 (Nat.le_of_lt hd.2) (quotedLoop_stepInv s1)

theorem unquoted_stepInv (s : LexState) : stepInv s (unquoted s) := by
  induction s using unquoted.induct with
  | case1 x hp =>
      unfold unquoted
      rw [hp]
      exact stepInv_ok_self
  | case2 x rest hp =>
      unfold unquoted
      rw [hp]
      dsimp only
      rw [if_pos rfl]
      refine ⟨rfl, Nat.le_refl _, ?_⟩
      intro hh
      simp [resEof, BErr.isEof] at hh
  | case3 x c rest hp hq hw =>
      unfold unquoted
      rw [hp]
      dsimp only
      rw [if_neg hq, if_pos hw]
      exact stepInv_ok_self
  | case4 x c rest hp hq hw s' ha ih =>
      unfold unquoted
      rw [hp]
      dsimp only
      rw [if_neg hq, if_neg hw, ha]
      have hc := accept_cases x
      rw [ha] at hc
      exact stepInv_ok_trans hc.1 (Nat.le_of_lt hc.2) ih
  | case5 x c rest hp hq hw e ha =>
      unfold unquoted
      rw [hp]
      dsimp only
      rw [if_neg hq, if_neg hw, ha]
      have hc := accept_cases x
      rw [ha] at hc
      obtain ⟨e1, s1⟩ := e
      obtain ⟨rfl, rfl, hpe⟩ := hc
      exact stepInv_stopIter hpe

theorem space_progress {s s' : LexState}
    (hg : s.pending.head? = some ' ' ∨ s.pending.head? = some '\t')
    (h : space s = .ok s') : s'.pending.length < s.pending.length := by
  unfold space at h
  rw [if_pos hg] at h
  cases ha : accept s with
  | error e => rw [ha] at h; exact absurd h (by simp)
  | ok s1 =>
      rw [ha] at h
      dsimp only at h
      have hc := accept_cases s
      rw [ha] at hc
      have hsp := space_stepInv s1
      rw [h] at hsp
      exact Nat.lt_of_le_of_lt hsp.2.1 hc.2

theorem quoted_progress {s s' : LexState} (hne : s.pending ≠ [])
    (h : quoted s = .ok s') : s'.pending.length < s.pending.length := by
  unfold quoted at h
  cases hdd : discard s with
  | error e => rw [hdd] at h; exact absurd h (by simp)
  | ok s1 =>
      rw [hdd] at h
      dsimp only at h
      have hd := discard_cases s
      rw [hdd] at hd
      have hql := quotedLoop_stepInv s1
      rw [h] at hql
      exact Nat.lt_of_le_of_lt hql.2.1 hd.2

theorem unquoted_progress {s s' : LexState} {c : Char} {rest : List Char}
    (hp : s.pending = c :: rest) (hq : c ≠ '"')
    (hw : ¬(c = '\n' ∨ c = ' ' ∨ c = '\t'))
    (h : unquoted s = .ok s') : s'.pending.length < s.pending.length := by
  unfold unquoted at h
  rw [hp] at h
  dsimp only at h
  rw [if_neg hq, if_neg hw] at h
  cases ha : accept s with
  | error e => rw [ha] at h; exact absurd h (by simp)
  | ok s1 =>
      rw [ha] at h
      dsimp only at h
      have hc := accept_cases s
      rw [ha] at hc
      have hu := unquoted_stepInv s1
      rw [h] at hu
      exact Nat.lt_of_le_of_lt hu.2.1 hc.2

theorem newline_progress {s s' : LexState}
    (h : newline s = .ok s') : s'.pending.length < s.pending.length := by
  unfold newline at h
  have hc := accept_cases s
  cases ha : accept s with
  | error e => rw [ha] at h; exact absurd h (by simp)
  | ok s1 =>
      rw [ha] at hc
      rw [ha] at h
      simp only [Except.ok.injEq] at h
      rw [← h]
      exact hc.2

/-- What one __next__ call guarantees: an emitted token's raw `chars`
are exactly the characters removed from `pending` and at least one
character is consumed; a StopIteration leaves `pending` empty; a fatal
error's carried state accounts for the characters it consumed, and an
end-of-input error leaves `pending` empty. -/
def nextSpec (s0 : LexState) : NextResult → Prop
  | .tok t s' =>
      t.chars ++ s'.pending = s0.pending ∧ s'.pending.length < s0.pending.length
  | .stop s' => s'.chars ++ s'.pending = s0.pending ∧ s'.pending = []
  | .err e s' =>
      s'.chars ++ s'.pending = s0.pending ∧ (BErr.isEof e = true → s'.pending = [])

theorem finishStep_spec {s0 s1 : LexState} {r : Except (BErr × LexState) LexState}
    (hch : s1.chars = []) (hpd : s1.pending = s0.pending)
    (hInv : stepInv s1 r)
    (hProg : ∀ s2, r = .ok s2 → s2.pending.length < s1.pending.length) :
    nextSpec s0 (finishStep r) := by
  obtain ⟨hcons, hle, heof⟩ := hInv
  cases r with
  | ok s2 =>
      dsimp only [finishStep, nextSpec, token]
      dsimp only [resState] at hcons
      rw [hch] at hcons
      simp only [List.nil_append] at hcons
      exact ⟨by rw [hcons, hpd], by rw [← hpd]; exact hProg s2 rfl⟩
  | error e =>
      obtain ⟨e1, s2⟩ := e
      dsimp only [resState] at hcons
      rw [hch] at hcons
      simp only [List.nil_append] at hcons
      dsimp only [resEof] at heof
      rw [hpd] at hcons
      cases e1 with
      | stopIter =>
          dsimp only [finishStep, nextSpec]
          exact ⟨hcons, heof rfl⟩
      | unterminatedQuote raw =>
          dsimp only [finishStep, nextSpec]
          exact ⟨hcons, fun _ => heof rfl⟩
      | bareQuote =>
          dsimp only [finishStep, nextSpec]
          refine ⟨hcons, ?_⟩
          intro hh
          simp [BErr.isEof] at hh
      | invalidDigit c b =>
          dsimp only [finishStep, nextSpec]
          refine ⟨hcons, ?_⟩
          intro hh
          simp [BErr.isEof] at hh

theorem nextToken_spec (s0 : LexState) : nextSpec s0 (nextToken s0) := by
  unfold nextToken
  cases hp : s0.pending with
  | nil =>
      dsimp only [nextSpec]
      exact ⟨by simp [hp], rfl⟩
  | cons c cs =>
      dsimp only
      by_cases h1 : c = '\n'
      · rw [if_pos h1]
        refine finishStep_spec rfl (by rw [hp]) (newline_stepInv _) ?_
        intro s2 hr
        exact newline_progress hr
      · rw [if_neg h1]
        by_cases h2 : c = ' ' ∨ c = '\t'
        · rw [if_pos h2]
          refine finishStep_spec rfl (by rw [hp]) (space_stepInv _) ?_
          intro s2 hr
          refine space_progress ?_ hr
          dsimp only
          cases h2 with
          | inl h => rw [h]; exact Or.inl rfl
          | inr h => rw [h]; exact Or.inr rfl
        · rw [if_neg h2]
          by_cases h3 : c = '"'
          · rw [if_pos h3]
            refine finishStep_spec rfl (by rw [hp]) (quoted_stepInv _) ?_
            intro s2 hr
            refine quoted_progress ?_ hr
            dsimp only
            exact List.cons_ne_nil c cs
          · rw [if_neg h3]
            refine finishStep_spec rfl (by rw [hp]) (unquoted_stepInv _) ?_
            intro s2 hr
            refine unquoted_progress rfl h3 ?_ hr
            intro hcon
            cases hcon with
            | inl h => exact h1 h
            | inr h => exact h2 h

theorem nextToken_tok {s0 : LexState} {t : Token} {s' : LexState}
    (h : nextToken s0 = .tok t s') :
    t.chars ++ s'.pending = s0.pending ∧ s'.pending.length < s0.pending.length := by
  have hs := nextToken_spec s0
  rw [h] at hs
  exact hs

theorem nextToken_stop {s0 s' : LexState} (h : nextToken s0 = .stop s') :
    s'.chars ++ s'.pending = s0.pending ∧ s'.pending = [] := by
  have hs := nextToken_spec s0
  rw [h] at hs
  exact hs

theorem nextToken_err {s0 s' : LexState} {e : BErr} (h : nextToken s0 = .err e s') :
    s'.chars ++ s'.pending = s0.pending ∧ (BErr.isEof e = true → s'.pending = []) := by
  have hs := nextToken_spec s0
  rw [h] at hs
  exact hs

/-- Iterating the lexer to exhaustion, the way `list(Lexer(...))` or a
for-loop does: collect the emitted tokens and keep the terminating
result (the StopIteration that ends the loop, or the error raised). -/
def lexAll (s : LexState) : List Token × NextResult :=
  match h : nextToken s with
  | .tok t s' =>
      let r := lexAll s'
      (t :: r.1, r.2)
  | .stop s' => ([], .stop s')
  | .err e s' => ([], .err e s')
termination_by s.pending.length
decreasing_by exact (nextToken_tok h).2

/-- Lexing a whole input from a fresh cursor. -/
def lex (input : List Char) : List Token × NextResult :=
  lexAll (initState input)

/-- The concatenation of the raw text of a list of tokens. -/
def concatChars (ts : List Token) : List Char :=
  ts.foldr (fun t acc => t.chars ++ acc) []

/-- The cursor state a __next__ outcome carries. -/
def NextResult.state : NextResult → LexState
  | .tok _ s => s
  | .stop s => s
  | .err _ s => s

def NextResult.isTok : NextResult → Bool
  | .tok _ _ => true
  | _ => false

def NextResult.isStop : NextResult → Bool
  | .stop _ => true
  | _ => false

def NextResult.isBareQuote : NextResult → Bool
  | .err .bareQuote _ => true
  | _ => false

def NextResult.isInvalidDigit : NextResult → Bool
  | .err (.invalidDigit _ _) _ => true
  | _ => false

def NextResult.isUnterminatedQuote : NextResult → Bool
  | .err (.unterminatedQuote _) _ => true
  | _ => false

/-- Fuel-indexed mirror of `space`, structurally recursive so that the
kernel can evaluate it on concrete inputs; with fuel at least the
pending length it agrees with `space` (`spaceN_eq`). -/
def spaceN : Nat → LexState → Except (BErr × LexState) LexState
  | 0, s => .ok s
  | n + 1, s =>
      if s.pending.head? = some ' ' ∨ s.pending.head? = some '\t' then
        match accept s with
        | .ok s' => spaceN n s'
        | .error e => .error e
      else
        .ok s

theorem spaceN_eq : ∀ (n : Nat) (s : LexState), s.pending.length ≤ n →
    spaceN n s = space s := by
  intro n
  induction n with
  | zero =>
      intro s hle
      have hp : s.pending = [] := List.length_eq_zero.mp (Nat.le_zero.mp hle)
      unfold spaceN space
      rw [hp]
      simp
  | succ m ih =>
      intro s hle
      unfold spaceN space
      by_cases hg : s.pending.head? = some ' ' ∨ s.pending.head? = some '\t'
      · rw [if_pos hg, if_pos hg]
        cases ha : accept s with
        | ok s' =>
            have := accept_ok_length ha
            exact ih s' (by omega)
        | error e => rfl
      · rw [if_neg hg, if_neg hg]

/-- Fuel-indexed mirror of `quotedLoop` (see `spaceN`). -/
def quotedLoopN : Nat → LexState → Except (BErr × LexState) LexState
  | 0, s => .error (.unterminatedQuote s.chars, s)
  | n + 1, s =>
      match s.pending with
      | [] => .error (.unterminatedQuote s.chars, s)
      | c :: _ =>
          if c = '"' then
            discard s
          else if c = '\\' then
            match quoted_escaped s with
            | .ok s' => quotedLoopN n s'
            | .error e => .error e
          else
            match accept s with
            | .ok s' => quotedLoopN n s'
            | .error e => .error e

theorem quotedLoopN_eq : ∀ (n : Nat) (s : LexState), s.pending.length ≤ n →
    quotedLoopN n s = quotedLoop s := by
  intro n
  induction n with
  | zero =>
      intro s hle
      have hp : s.pending = [] := List.length_eq_zero.mp (Nat.le_zero.mp hle)
      unfold quotedLoopN quotedLoop
      rw [hp]
  | succ m ih =>
      intro s hle
      unfold quotedLoopN quotedLoop
      cases hp : s.pending with
      | nil => rfl
      | cons c cs =>
          dsimp only
          by_cases hq : c = '"'
          · rw [if_pos hq, if_pos hq]
          · rw [if_neg hq, if_neg hq]
            by_cases hb : c = '\\'
            · rw [if_pos hb, if_pos hb]
              cases hqe : quoted_escaped s with
              | ok s' =>
                  have := quoted_escaped_ok_length hqe
                  rw [hp] at this hle
                  simp only [List.length_cons] at this hle
                  exact ih s' (by omega)
              | error e => rfl
            · rw [if_neg hb, if_neg hb]
              cases ha : accept s with
              | ok s' =>
                  have := accept_ok_length ha
                  rw [hp] at this hle
                  simp only [List.length_cons] at this hle
                  exact ih s' (by omega)
              | error e => rfl

/-- Fuel-indexed mirror of `unquoted` (see `spaceN`). -/
def unquotedN : Nat → LexState → Except (BErr × LexState) LexState
  | 0, s => .ok s
  | n + 1, s =>
      match s.pending with
      | [] => .ok s
      | c :: _ =>
          if c = '"' then
            .error (.bareQuote, s)
          else if c = '\n' ∨ c = ' ' ∨ c = '\t' then
            .ok s
          else
            match accept s with
            | .ok s' => unquotedN n s'
            | .error e => .error e

theorem unquotedN_eq : ∀ (n : Nat) (s : LexState), s.pending.length ≤ n →
    unquotedN n s = unquoted s := by
  intro n
  induction n with
  | zero =>
      intro s hle
      have hp : s.pending = [] := List.length_eq_zero.mp (Nat.le_zero.mp hle)
      unfold unquotedN unquoted
      rw [hp]
  | succ m ih =>
      intro s hle
      unfold unquotedN unquoted
      cases hp : s.pending with
      | nil => rfl
      | cons c cs =>
          dsimp only
          by_cases hq : c = '"'
          · rw [if_pos hq, if_pos hq]
          · rw [if_neg hq, if_neg hq]
            by_cases hw : c = '\n' ∨ c = ' ' ∨ c = '\t'
            · rw [if_pos hw, if_pos hw]
            · rw [if_neg hw, if_neg hw]
              cases ha : accept s with
              | ok s' =>
                  have := accept_ok_length ha
                  rw [hp] at this hle
                  simp only [List.length_cons] at this hle
                  exact ih s' (by omega)
              | error e => rfl

/-- Executable mirror of `quoted`. -/
def quotedE (s : LexState) : Except (BErr × LexState) LexState :=
  match discard s with
  | .error e => .error e
  | .ok s1 => quotedLoopN s1.pending.length s1

theorem quotedE_eq (s : LexState) : quotedE s = quoted s := by
  unfold quotedE quoted
  cases hd : discard s with
  | error e => rfl
  | ok s1 => exact quotedLoopN_eq s1.pending.length s1 (Nat.le_refl _)

/-- Executable mirror of `nextToken`. -/
def nextTokenE (s0 : LexState) : NextResult :=
  let s : LexState := { s0 with kind := none, value := [], chars := [] }
  match s.pending with
  | [] => .stop s
  | c :: _ =>
      finishStep
        (if c = '\n' then newline { s with kind := some "newline" }
         else if c = ' ' ∨ c = '\t' then
           spaceN s.pending.length { s with kind := some "space" }
         else if c = '"' then quotedE { s with kind := some "quoted" }
         else unquotedN s.pending.length { s with kind := some "unquoted" })

theorem nextTokenE_eq (s0 : LexState) : nextTokenE s0 = nextToken s0 := by
  unfold nextTokenE nextToken
  cases hp : s0.pending with
  | nil => rfl
  | cons c cs =>
      dsimp only
      by_cases h1 : c = '\n'
      · rw [if_pos h1, if_pos h1]
      · rw [if_neg h1, if_neg h1]
        by_cases h2 : c = ' ' ∨ c = '\t'
        · rw [if_pos h2, if_pos h2]
          exact congrArg finishStep (spaceN_eq _ _ (by simp))
        · rw [if_neg h2, if_neg h2]
          by_cases h3 : c = '"'
          · rw [if_pos h3, if_pos h3, quotedE_eq]
          · rw [if_neg h3, if_neg h3]
            exact congrArg finishStep (unquotedN_eq _ _ (by simp))

/-- Fuel-indexed executable mirror of `lexAll`. -/
def lexAllE : Nat → LexState → List Token × NextResult
  | 0, s => ([], .stop { s with kind := none, value := [], chars := [] })
  | n + 1, s =>
      match nextTokenE s with
      | .tok t s' =>
          let r := lexAllE n s'
          (t :: r.1, r.2)
      | .stop s' => ([], .stop s')
      | .err e s' => ([], .err e s')

theorem nextToken_nil {s : LexState} (hp : s.pending = []) :
    nextToken s = .stop { s with kind := none, value := [], chars := [] } := by
  unfold nextToken
  dsimp only
  rw [hp]

theorem lexAllE_eq : ∀ (n : Nat) (s : LexState), s.pending.length ≤ n →
    lexAllE n s = lexAll s := by
  intro n
  induction n with
  | zero =>
      intro s hle
      have hp : s.pending = [] := List.length_eq_zero.mp (Nat.le_zero.mp hle)
      unfold lexAllE lexAll
      rw [nextToken_nil hp]
  | succ m ih =>
      intro s hle
      unfold lexAllE lexAll
      rw [nextTokenE_eq]
      cases hnt : nextToken s with
      | tok t s' =>
          dsimp only
          have hlt := (nextToken_tok hnt).2
          rw [ih s' (by omega)]
      | stop s' => rfl
      | err e s' => rfl

/-- Evaluating `lex` on a concrete input goes through the executable
mirror with fuel the input length. -/
theorem lex_eval (input : List Char) :
    lex input = lexAllE input.length (initState input) := by
  unfold lex
  exact (lexAllE_eq input.length (initState input) (Nat.le_refl _)).symm

theorem lexAll_spec (s : LexState) :
    concatChars (lexAll s).1 ++ (((lexAll s).2).state).chars ++ (((lexAll s).2).state).pending
        = s.pending ∧
    (((lexAll s).2).isStop = true → (((lexAll s).2).state).pending = []) := by
  induction s using lexAll.induct with
  | case1 x t s' hnt ih =>
      unfold lexAll
      rw [hnt]
      dsimp only
      have hc := nextToken_tok hnt
      constructor
      · have hstep : concatChars (t :: (lexAll s').1) = t.chars ++ concatChars (lexAll s').1 := rfl
        rw [hstep]
        rw [List.append_assoc, List.append_assoc]
        rw [← List.append_assoc (concatChars (lexAll s').1)]
        rw [ih.1, hc.1]
      · exact ih.2
  | case2 x s' hnt =>
      unfold lexAll
      rw [hnt]
      have hc := nextToken_stop hnt
      exact ⟨hc.1, fun _ => hc.2⟩
  | case3 x e s' hnt =>
      unfold lexAll
      rw [hnt]
      have hc := nextToken_err hnt
      refine ⟨hc.1, ?_⟩
      intro hh
      simp [NextResult.isStop] at hh

theorem unquoted_bareQuote :
    ∀ (w : List Char) (s : LexState) (rest : List Char),
      (∀ c ∈ w, c ≠ '\n' ∧ c ≠ ' ' ∧ c ≠ '\t' ∧ c ≠ '"') →
      s.pending = w ++ '"' :: rest →
      ∃ sE, unquoted s = .error (.bareQuote, sE) := by
  intro w
  induction w with
  | nil =>
      intro s rest hord hp
      rw [List.nil_append] at hp
      refine ⟨s, ?_⟩
      unfold unquoted
      rw [hp]
      dsimp only
      rw [if_pos rfl]
  | cons c w' ih =>
      intro s rest hord hp
      have hc := hord c (List.mem_cons_self c w')
      have hp' : s.pending = c :: (w' ++ '"' :: rest) := by rw [hp]; rfl
      have hacc := accept_cases s
      cases ha : accept s with
      | error e =>
          rw [ha] at hacc
          obtain ⟨e1, s1⟩ := e
          rw [hp'] at hacc
          exact absurd hacc.2.2 (by simp)
      | ok s1 =>
          rw [ha] at hacc
          have hp1 : s1.pending = w' ++ '"' :: rest := by
            unfold accept at ha
            cases htk : take s with
            | error e => rw [htk] at ha; exact absurd ha (by simp)
            | ok p =>
                rw [htk] at ha
                simp only [Except.ok.injEq] at ha
                have h2 : s.pending = p.1 :: p.2.pending := take_ok_pending (by rw [htk])
                rw [hp'] at h2
                have : p.2.pending = w' ++ '"' :: rest := (List.cons.injEq _ _ _ _).mp h2 |>.2.symm
                rw [← ha]
                exact this
          obtain ⟨sE, hsE⟩ := ih s1 rest (fun d hd => hord d (List.mem_cons_of_mem c hd)) hp1
          refine ⟨sE, ?_⟩
          unfold unquoted
          rw [hp']
          dsimp only
          rw [if_neg hc.2.2.2, if_neg (by tauto), ha]
          exact hsE

/-- The state after `take` consumes one pending character. -/
def afterTake (s : LexState) (c : Char) (l : List Char) : LexState :=
  { s with
    pending := l,
    chars := s.chars ++ [c],
    position := s.position + 1,
    line := if c = '\n' then s.line + 1 else s.line,
    column := if c = '\n' then 0 else s.column + 1 }

theorem take_cons {s : LexState} {c : Char} {l : List Char} (hp : s.pending = c :: l) :
    take s = .ok (c, afterTake s c l) := by
  unfold take afterTake
  rw [hp]

theorem accept_cons {s : LexState} {c : Char} {l : List Char} (hp : s.pending = c :: l) :
    accept s = .ok { afterTake s c l with value := s.value ++ [c] } := by
  unfold accept
  rw [take_cons hp]
  rfl

theorem discard_cons {s : LexState} {c : Char} {l : List Char} (hp : s.pending = c :: l) :
    discard s = .ok (afterTake s c l) := by
  unfold discard
  rw [take_cons hp]

/-- Whether a builder result is a success. -/
def exOk : Except (BErr × LexState) LexState → Bool
  | .ok _ => true
  | .error _ => false

/-- Whether a builder result is an InvalidDigit rejection. -/
def exInvalidDigit : Except (BErr × LexState) LexState → Bool
  | .error (.invalidDigit _ _, _) => true
  | _ => false

theorem intOfDigits_two (base : Nat) (c1 c2 : Char) :
    intOfDigits base [c1, c2] = digitVal c1 * base + digitVal c2 := by
  unfold intOfDigits
  simp [List.foldl]

theorem number2_cases (base : Nat) (s : LexState) (c1 c2 : Char) (rest : List Char)
    (hp : s.pending = c1 :: c2 :: rest) :
    (c1 ∈ valid_digits base → c2 ∈ valid_digits base →
       number base 2 s = .ok { afterTake (afterTake s c1 (c2 :: rest)) c2 rest with
         value := s.value ++ [Char.ofNat (digitVal c1 * base + digitVal c2)] }) ∧
    (c1 ∉ valid_digits base →
       number base 2 s = .error (.invalidDigit c1 base, afterTake s c1 (c2 :: rest))) ∧
    (c1 ∈ valid_digits base → c2 ∉ valid_digits base →
       number base 2 s =
         .error (.invalidDigit c2 base, afterTake (afterTake s c1 (c2 :: rest)) c2 rest)) := by
  have hpA : (afterTake s c1 (c2 :: rest)).pending = c2 :: rest := rfl
  refine ⟨?_, ?_, ?_⟩
  · intro h1 h2
    unfold number
    simp only [numberLoop, take_cons hp, take_cons hpA, h1, h2, if_true,
      List.nil_append, List.cons_append]
    rw [intOfDigits_two]
    rfl
  · intro h1
    unfold number
    simp only [numberLoop, take_cons hp, h1, if_false, if_neg h1]
  · intro h1 h2
    unfold number
    simp only [numberLoop, take_cons hp, take_cons hpA, h1, h2, if_true, if_false,
      if_neg h2, List.nil_append, List.cons_append]

theorem quoted_escaped_numeric (s : LexState) (intro : Char) (base : Nat)
    (hib : (intro = 'o' ∧ base = 8) ∨ (intro = 'x' ∧ base = 16))
    (tl : List Char) (hp : s.pending = '\\' :: intro :: tl) :
    quoted_escaped s = number base 2 (afterTake (afterTake s '\\' (intro :: tl)) intro tl) := by
  unfold quoted_escaped
  rw [discard_cons hp]
  dsimp only
  have hpA : (afterTake s '\\' (intro :: tl)).pending = intro :: tl := rfl
  rw [take_cons hpA]
  dsimp only
  rcases hib with ⟨hi, hb⟩ | ⟨hi, hb⟩ <;> subst hi <;> subst hb
  · rw [show List.lookup 'o' simple_escapes = none from rfl]
    rw [if_pos rfl]
  · rw [show List.lookup 'x' simple_escapes = none from rfl]
    rw [if_neg (by decide), if_pos rfl]

/-- Claim C1: for every input, concatenating the `chars` of all emitted
tokens, followed by the raw characters consumed by the terminating call
and the unconsumed remainder, reconstructs the input exactly — so the
emitted `chars` are exactly the prefix consumed by the completed calls,
and when lexing stops cleanly (end-of-sequence with nothing consumed by
the final call) the concatenation is the entire input. -/
theorem round_trip (input : List Char) :
    concatChars (lex input).1 ++ (((lex input).2).state).chars
        ++ (((lex input).2).state).pending = input ∧
    (((lex input).2).isStop = true → (((lex input).2).state).chars = [] →
      concatChars (lex input).1 = input) := by
  unfold lex
  have h := lexAll_spec (initState input)
  refine ⟨h.1, ?_⟩
  intro hstop hchars
  have hp := h.2 hstop
  have h1 := h.1
  rw [hchars, hp, List.append_nil, List.append_nil] at h1
  exact h1

theorem round_trip_w : concatChars (lex [' ']).1 = [' '] :=
  (round_trip [' ']).2 (by rw [lex_eval]; decide) (by rw [lex_eval]; decide)

/-- Claim C2 (code bug): on the quoted input `"\q"` the unknown-escape
branch calls accept(), which consumes the character after `q` — here
the closing quote, which lands in `value` — so lexing the well-formed
input fails with UnterminatedQuote instead of emitting a quoted token
with value `q` and a warning. -/
theorem unknown_escape_consumes_extra :
    (lex ['"', '\\', 'q', '"']).1 = [] ∧
    ((lex ['"', '\\', 'q', '"']).2).isUnterminatedQuote = true ∧
    (((lex ['"', '\\', 'q', '"']).2).state).value = ['"'] ∧
    (((lex ['"', '\\', 'q', '"']).2).state).warnings = ['q'] := by
  rw [lex_eval]
  exact ⟨by decide, by decide, by decide, by decide⟩

/-- Claim C3 (counterexample): lexing `"\o101"` does not decode to `A`:
the octal escape reads exactly two digits, so the token's value is the
character with code point 8 followed by a literal digit 1. -/
theorem octal_escape_claim_cex :
    (lex ['"', '\\', 'o', '1', '0', '1', '"']).1.map Token.value
      = [[Char.ofNat 8, '1']] ∧
    [Char.ofNat 8, '1'] ≠ ['A'] := by
  rw [lex_eval]
  exact ⟨by decide, by decide⟩

/-- Claim C3 (amended): lexing `"\o101"` succeeds and yields one quoted
token whose value is the character with code point 8 (octal 10) followed
by the literal character 1, with `chars` the whole input. -/
theorem octal_escape_two_digits :
    (lex ['"', '\\', 'o', '1', '0', '1', '"']).1 =
      [⟨"quoted", [Char.ofNat 8, '1'], ['"', '\\', 'o', '1', '0', '1', '"']⟩] ∧
    ((lex ['"', '\\', 'o', '1', '0', '1', '"']).2).isStop = true ∧
    (((lex ['"', '\\', 'o', '1', '0', '1', '"']).2).state).chars = [] := by
  rw [lex_eval]
  exact ⟨by decide, by decide, by decide⟩

/-- Claim C4 (code bug): on input `"\` — end-of-input right after a
backslash inside a quoted literal — take() raises StopIteration, which
ends iteration silently: both characters are consumed mid-token but no
token and no UnterminatedQuote error is produced. -/
theorem eof_in_quote_escape_silent :
    (lex ['"', '\\']).1 = [] ∧
    ((lex ['"', '\\']).2).isStop = true ∧
    (((lex ['"', '\\']).2).state).chars = ['"', '\\'] ∧
    ((lex ['"', '\\']).2).isUnterminatedQuote = false := by
  rw [lex_eval]
  exact ⟨by decide, by decide, by decide, by decide⟩

/-- Claim C5: after `\o` (base 8) or `\x` (base 16) with two characters
available, the escape decoder succeeds exactly when both characters are
digits of the base, fails with InvalidDigit exactly otherwise, and on
success consumes exactly those two characters, records all four raw
characters in `chars`, and appends to `value` the single character whose
code point is the two digits read as a base-8 resp. base-16 numeral. -/
theorem numeric_escape_spec (intro : Char) (base : Nat)
    (hib : (intro = 'o' ∧ base = 8) ∨ (intro = 'x' ∧ base = 16))
    (s : LexState) (c1 c2 : Char) (rest : List Char)
    (hp : s.pending = '\\' :: intro :: c1 :: c2 :: rest) :
    (exOk (quoted_escaped s) = true ↔ (c1 ∈ valid_digits base ∧ c2 ∈ valid_digits base)) ∧
    (exInvalidDigit (quoted_escaped s) = true ↔
      ¬(c1 ∈ valid_digits base ∧ c2 ∈ valid_digits base)) ∧
    (∀ s', quoted_escaped s = .ok s' →
       s'.pending = rest ∧
       s'.chars = s.chars ++ ['\\', intro, c1, c2] ∧
       s'.value = s.value ++ [Char.ofNat (digitVal c1 * base + digitVal c2)]) := by
  have hroute := quoted_escaped_numeric s intro base hib (c1 :: c2 :: rest) hp
  have hpB : (afterTake (afterTake s '\\' (intro :: c1 :: c2 :: rest)) intro
      (c1 :: c2 :: rest)).pending = c1 :: c2 :: rest := rfl
  have hn := number2_cases base _ c1 c2 rest hpB
  by_cases h1 : c1 ∈ valid_digits base
  · by_cases h2 : c2 ∈ valid_digits base
    · have heq := hn.1 h1 h2
      rw [hroute, heq]
      refine ⟨by simp [exOk, h1, h2], by simp [exInvalidDigit, h1, h2], ?_⟩
      intro s' hok
      simp only [Except.ok.injEq] at hok
      rw [← hok]
      refine ⟨rfl, ?_, rfl⟩
      simp [afterTake]
    · have heq := hn.2.2 h1 h2
      rw [hroute, heq]
      refine ⟨by simp [exOk, h2], by simp [exInvalidDigit, h2], ?_⟩
      intro s' hok
      exact absurd hok (by simp)
  · have heq := hn.2.1 h1
    rw [hroute, heq]
    refine ⟨by simp [exOk, h1], by simp [exInvalidDigit, h1], ?_⟩
    intro s' hok
    exact absurd hok (by simp)

theorem numeric_escape_spec_w :
    exOk (quoted_escaped (initState ['\\', 'x', '4', '1'])) = true :=
  ((numeric_escape_spec 'x' 16 (Or.inr ⟨rfl, rfl⟩) (initState ['\\', 'x', '4', '1'])
      '4' '1' [] rfl).1).mpr (by decide)

/-- Claim C6: lexing `ayy\n "lmao"` yields exactly the four tokens
unquoted(ayy), newline, space, quoted(lmao with quotes kept in chars),
in that order, ending cleanly. -/
theorem sequencing_example :
    (lex ['a', 'y', 'y', '\n', ' ', '"', 'l', 'm', 'a', 'o', '"']).1 =
      [⟨"unquoted", ['a', 'y', 'y'], ['a', 'y', 'y']⟩,
       ⟨"newline", ['\n'], ['\n']⟩,
       ⟨"space", [' '], [' ']⟩,
       ⟨"quoted", ['l', 'm', 'a', 'o'], ['"', 'l', 'm', 'a', 'o', '"']⟩] ∧
    ((lex ['a', 'y', 'y', '\n', ' ', '"', 'l', 'm', 'a', 'o', '"']).2).isStop = true := by
  rw [lex_eval]
  exact ⟨by decide, by decide⟩

/-- Claim C7: a double quote met while a nonempty unquoted run is being
built — an input that starts with one or more ordinary characters and
then a quote — makes the producing call fail with BareQuote. -/
theorem bare_quote_mid_word (w rest : List Char) (hw : w ≠ [])
    (hord : ∀ c ∈ w, c ≠ '\n' ∧ c ≠ ' ' ∧ c ≠ '\t' ∧ c ≠ '"') :
    NextResult.isBareQuote (nextToken (initState (w ++ '"' :: rest))) = true := by
  cases w with
  | nil => exact absurd rfl hw
  | cons c w' =>
      have hc := hord c (List.mem_cons_self c w')
      unfold nextToken initState
      rw [List.cons_append]
      dsimp only
      rw [if_neg hc.1, if_neg (by tauto), if_neg hc.2.2.2]
      obtain ⟨sE, hsE⟩ := unquoted_bareQuote (c :: w')
        { pending := c :: (w' ++ '"' :: rest), position := 1, line := 1, column := 0,
          prev := none, kind := some "unquoted", value := [], chars := [], warnings := [] }
        rest hord rfl
      rw [hsE]
      rfl

theorem bare_quote_mid_word_w :
    NextResult.isBareQuote (nextToken (initState (['a', 'b'] ++ '"' :: ['c', 'd']))) = true :=
  bare_quote_mid_word ['a', 'b'] ['c', 'd'] (by decide) (by decide)

/-- Claim C8 (counterexample): fatal errors are not latched — after an
InvalidDigit error the same cursor's next call returns a space token. -/
theorem error_not_latched :
    NextResult.isInvalidDigit (nextToken (initState ['"', '\\', 'o', '9', ' ', 'a'])) = true ∧
    NextResult.isTok (nextToken
      ((nextToken (initState ['"', '\\', 'o', '9', ' ', 'a'])).state)) = true := by
  constructor
  · rw [← nextTokenE_eq]
    decide
  · simp only [← nextTokenE_eq]
    decide

/-- Claim C8 (amended): once a call has signalled end-of-sequence, or
has failed with UnterminatedQuote, every subsequent call on that cursor
signals end-of-sequence (in both cases the input is exhausted); the
BareQuote and InvalidDigit errors do not latch the cursor. -/
theorem stop_or_unterminated_latches (s : LexState) :
    (∀ raw s', nextToken s = .err (.unterminatedQuote raw) s' →
       NextResult.isStop (nextToken s') = true) ∧
    (∀ s', nextToken s = .stop s' → NextResult.isStop (nextToken s') = true) := by
  constructor
  · intro raw s' h
    have hp := (nextToken_err h).2 rfl
    rw [nextToken_nil hp]
    rfl
  · intro s' h
    have hp := (nextToken_stop h).2
    rw [nextToken_nil hp]
    rfl

theorem stop_or_unterminated_latches_w :
    NextResult.isStop (nextToken
      { pending := [], position := 3, line := 1, column := 2, prev := none,
        kind := some "quoted", value := ['a'], chars := ['"', 'a'], warnings := [] }) = true :=
  (stop_or_unterminated_latches (initState ['"', 'a'])).1 ['"', 'a'] _
    (by rw [← nextTokenE_eq]; decide)

/-- Claim C9: the cursor starts at position 1, line 1, column 0, and
every consumed character increments the position by one; a line feed
increments the line and resets the column to 0, any other character
leaves the line and increments the column by one. -/
theorem position_tracking (s : LexState) (c : Char) (s' : LexState)
    (h : take s = .ok (c, s')) :
    s'.position = s.position + 1 ∧
    s'.line = (if c = '\n' then s.line + 1 else s.line) ∧
    s'.column = (if c = '\n' then 0 else s.column + 1) ∧
    (∀ input : List Char,
      (initState input).position = 1 ∧ (initState input).line = 1 ∧
      (initState input).column = 0) := by
  cases hp : s.pending with
  | nil =>
      rw [show take s = .error (.stopIter, s) by unfold take; rw [hp]] at h
      exact absurd h (by simp)
  | cons a l =>
      rw [take_cons hp] at h
      simp only [Except.ok.injEq, Prod.mk.injEq] at h
      obtain ⟨hca, hsa⟩ := h
      subst hca
      rw [← hsa]
      exact ⟨rfl, rfl, rfl, fun input => ⟨rfl, rfl, rfl⟩⟩

theorem position_tracking_w :
    (afterTake (initState ['\n']) '\n' []).position = (initState ['\n']).position + 1 :=
  (position_tracking (initState ['\n']) '\n' _ (take_cons rfl)).1

/-- Claim C10: a call that returns a token has consumed at least one
character: the token's raw `chars` are nonempty and the unconsumed
input got strictly shorter — so a finite input yields finitely many
tokens. -/
theorem token_consumes (s : LexState) (t : Token) (s' : LexState)
    (h : nextToken s = .tok t s') :
    t.chars ≠ [] ∧ s'.pending.length < s.pending.length := by
  have hc := nextToken_tok h
  refine ⟨?_, hc.2⟩
  intro hnil
  have h1 := hc.1
  rw [hnil, List.nil_append] at h1
  have h2 := hc.2
  rw [h1] at h2
  exact Nat.lt_irrefl _ h2

theorem token_consumes_w :
    (⟨"unquoted", ['a'], ['a']⟩ : Token).chars ≠ [] ∧
    ({ pending := [], position := 2, line := 1, column := 1,
       prev := some ⟨"unquoted", ['a'], ['a']⟩, kind := some "unquoted",
       value := ['a'], chars := ['a'], warnings := [] } : LexState).pending.length <
      (initState ['a']).pending.length :=
  token_consumes (initState ['a']) _ _ (by rw [← nextTokenE_eq]; decide)

end FML
